import Mathlib

/-
Shallow embedding of src/src/tools/singlejar/log4j2_plugin_dat_combiner.cc.

Strings are modelled as byte lists (List Nat, every element a byte value);
std::map is modelled as an association list kept strictly sorted by key in
byte-lexicographic order, which is the representation invariant of std::map
with the default std::less comparator on std::string.  The member functions
used by the source are modelled one by one: map::insert keeps an existing
binding on a key collision, operator[] followed by assignment replaces it,
and find scans by equality.

The decoder reads from a std::istringstream.  A read past the end of the
buffer sets the fail state of the stream and leaves the destination object
unchanged, that is, holding an indeterminate value, and every later read
extracts nothing.  The indeterminate values of such failed reads are made
explicit through an oracle parameter junk : Nat -> Nat that supplies one
arbitrary value per failed read; string payload reads are an exception, the
destination string is value-initialized to NUL bytes by the source, so a
failed or short payload read yields the bytes actually extracted padded
with zeros.  Theorems about well-formed inputs hold for every oracle.
-/

namespace L4J

/-- Byte-lexicographic strict order on byte strings, the order used by
std::map with std::string keys (char_traits compares as unsigned char). -/
def strLt : List Nat → List Nat → Bool
  | [], [] => false
  | [], _ :: _ => true
  | _ :: _, [] => false
  | a :: as, b :: bs => if a < b then true else if b < a then false else strLt as bs

/-- One plugin record, mirroring struct PluginEntry of the source header:
key, className, name, printable, defer and the back-reference category. -/
structure PluginEntry where
  key : List Nat
  className : List Nat
  name : List Nat
  printable : Bool
  defer : Bool
  category : List Nat
deriving DecidableEq, Repr

/-- A category is std::map from key to PluginEntry: a sorted association list. -/
abbrev EntryMap := List (List Nat × PluginEntry)

/-- A catalog is std::map from category name to category map. -/
abbrev Catalog := List (List Nat × EntryMap)

/-- Model of std::map::insert on the sorted association list: the pair is
placed at its ordered position, and if the key is already present the
EXISTING binding is kept and the new one discarded. -/
def mapInsert (k : List Nat) (v : α) : List (List Nat × α) → List (List Nat × α)
  | [] => [(k, v)]
  | (k', v') :: rest =>
    if strLt k k' then (k, v) :: (k', v') :: rest
    else if strLt k' k then (k', v') :: mapInsert k v rest
    else (k', v') :: rest

/-- Model of the assignment form map[k] = v: the pair is placed at its
ordered position, replacing an existing binding for the same key. -/
def mapAssign (k : List Nat) (v : α) : List (List Nat × α) → List (List Nat × α)
  | [] => [(k, v)]
  | (k', v') :: rest =>
    if strLt k k' then (k, v) :: (k', v') :: rest
    else if strLt k' k then (k', v') :: mapAssign k v rest
    else (k, v) :: rest

/-- Model of std::map::find, by key equality. -/
def mapFind (k : List Nat) : List (List Nat × α) → Option α
  | [] => none
  | (k', v) :: rest => if k = k' then some v else mapFind k rest

/-- Model of the statement categories[category].insert({key, entry}) of the
decoder: operator[] materializes an empty inner map when the category is
absent, then map::insert keeps an existing entry for the same key. -/
def catInsertEntry : Catalog → List Nat → List Nat → PluginEntry → Catalog
  | [], cat, k, e => [(cat, [(k, e)])]
  | (c, m) :: rest, cat, k, e =>
    if strLt cat c then (cat, [(k, e)]) :: (c, m) :: rest
    else if strLt c cat then (c, m) :: catInsertEntry rest cat k e
    else (c, mapInsert k e m) :: rest

/-- Whether the catalog holds some entry under the given category and key. -/
def keyInCat (c : Catalog) (cat k : List Nat) : Bool :=
  match mapFind cat c with
  | none => false
  | some m => (mapFind k m).isSome

/-- The entry held by the catalog under the given category and key. -/
def catLookup (c : Catalog) (cat k : List Nat) : Option PluginEntry :=
  match mapFind cat c with
  | none => none
  | some m => mapFind k m

/-- Sortedness representation invariant of one std::map level. -/
abbrev sortedMapP (m : List (List Nat × α)) : Prop :=
  List.Pairwise (fun a b => strLt a.1 b.1 = true) m

/-- Sortedness representation invariant of a whole catalog. -/
abbrev sortedCatalogP (c : Catalog) : Prop :=
  sortedMapP c ∧ ∀ p ∈ c, sortedMapP p.2

/-- Big-endian bytes of a value truncated to the given byte width; this is
what the byte-swapping write helpers of the source emit for a fixed-width
integer after the narrowing cast. -/
def toBytes : Nat → Nat → List Nat
  | 0, _ => []
  | w + 1, n => toBytes w (n / 256) ++ [n % 256]

/-- Big-endian value of a byte list. -/
def beVal (bs : List Nat) : Nat :=
  bs.foldl (fun a b => a * 256 + b % 256) 0

/-- Source writeBoolean: one byte, 1 for true and 0 for false. -/
def writeBoolean (b : Bool) : List Nat :=
  [if b then 1 else 0]

/-- Source writeInt: the 32-bit value in big-endian byte order.  The size_t
to int narrowing in the callers keeps exactly the low 32 bits. -/
def writeInt (n : Nat) : List Nat :=
  toBytes 4 n

/-- Source writeUTFString: a 2-byte big-endian length field holding the
length truncated to uint16_t, followed by ALL bytes of the string. -/
def writeUTFString (s : List Nat) : List Nat :=
  toBytes 2 s.length ++ s

/-- Serialization of one plugin entry, the body of the inner writer loop. -/
def writeEntry (p : PluginEntry) : List Nat :=
  writeUTFString p.key ++ writeUTFString p.className ++ writeUTFString p.name ++
    writeBoolean p.printable ++ writeBoolean p.defer

/-- Serialization of the entries of one category, in map iteration order. -/
def writeEntries : EntryMap → List Nat
  | [] => []
  | (_, p) :: rest => writeEntry p ++ writeEntries rest

/-- Serialization of a list of categories, in map iteration order. -/
def writeCategories : Catalog → List Nat
  | [] => []
  | (c, m) :: rest =>
    writeUTFString c ++ writeInt m.length ++ writeEntries m ++ writeCategories rest

/-- Source writeLog4j2PluginCacheFile: category count, then each category
with its name, entry count and entries, all in map iteration order. -/
def writeLog4j2PluginCacheFile (categories : Catalog) : List Nat :=
  writeInt categories.length ++ writeCategories categories

/-- State of the std::istringstream read cursor together with the oracle
supplying the indeterminate values of failed reads. -/
structure RStream where
  data : List Nat
  pos : Nat
  failed : Bool
  junk : Nat → Nat
  jctr : Nat

/-- Draw one indeterminate value from the oracle. -/
def useJunk (s : RStream) : Nat × RStream :=
  (s.junk s.jctr, { s with jctr := s.jctr + 1 })

/-- Raw stream read of n bytes: succeeds only when the stream has not
failed and n bytes remain; otherwise the fail state is set and nothing is
delivered, as with std::istream::read. -/
def readRaw (n : Nat) (s : RStream) : Option (List Nat) × RStream :=
  if s.failed then (none, s)
  else if s.pos + n ≤ s.data.length then
    (some ((s.data.drop s.pos).take n), { s with pos := s.pos + n })
  else (none, { s with pos := s.data.length, failed := true })

/-- Payload read for readUTFString: the destination string is
value-initialized to NUL bytes, so the result is the bytes actually
extracted padded with zeros up to the requested length. -/
def readChunk (n : Nat) (s : RStream) : List Nat × RStream :=
  if s.failed then (List.replicate n 0, s)
  else
    let avail := s.data.length - s.pos
    if n ≤ avail then ((s.data.drop s.pos).take n, { s with pos := s.pos + n })
    else ((s.data.drop s.pos) ++ List.replicate (n - avail) 0,
          { s with pos := s.data.length, failed := true })

/-- Source readBool: one byte, zero means false; a failed read leaves the
bool indeterminate. -/
def readBool (s : RStream) : Bool × RStream :=
  match readRaw 1 s with
  | (some bs, s') => (bs.headD 0 ≠ 0, s')
  | (none, s') =>
    let (j, s'') := useJunk s'
    (j ≠ 0, s'')

/-- Source readInt: four bytes, big-endian; a failed read leaves the
uint32_t indeterminate. -/
def readInt (s : RStream) : Nat × RStream :=
  match readRaw 4 s with
  | (some bs, s') => (beVal bs, s')
  | (none, s') =>
    let (j, s'') := useJunk s'
    (j % 2 ^ 32, s'')

/-- Source readUTFString: a 2-byte big-endian length then that many raw
bytes; a failed length read leaves the uint16_t indeterminate. -/
def readUTFString (s : RStream) : List Nat × RStream :=
  let (len, s1) :=
    match readRaw 2 s with
    | (some bs, s') => (beVal bs, s')
    | (none, s') =>
      let (j, s'') := useJunk s'
      (j % 2 ^ 16, s'')
  readChunk len s1

/-- Body of the inner decoder loop: read the five fields and build the
entry, whose category field is set to the enclosing category name. -/
def loadEntry (category : List Nat) (s : RStream) : PluginEntry × RStream :=
  let (key, s1) := readUTFString s
  let (className, s2) := readUTFString s1
  let (name, s3) := readUTFString s2
  let (printable, s4) := readBool s3
  let (deferFlag, s5) := readBool s4
  (⟨key, className, name, printable, deferFlag, category⟩, s5)

/-- Inner decoder loop: read the given number of entries, inserting each
into the catalog under the enclosing category. -/
def loadEntries (category : List Nat) : Nat → Catalog → RStream → Catalog × RStream
  | 0, cats, s => (cats, s)
  | n + 1, cats, s =>
    let (e, s') := loadEntry category s
    loadEntries category n (catInsertEntry cats category e.key e) s'

/-- Outer decoder loop: read the given number of categories. -/
def loadCategories : Nat → Catalog → RStream → Catalog × RStream
  | 0, cats, s => (cats, s)
  | n + 1, cats, s =>
    let (category, s1) := readUTFString s
    let (entries, s2) := readInt s1
    let (cats', s3) := loadEntries category entries cats s2
    loadCategories n cats' s3

/-- Source loadLog4j2PluginCacheFile: read the category count and then the
categories, starting from the empty catalog. -/
def loadLog4j2PluginCacheFile (junk : Nat → Nat) (data : List Nat) : Catalog :=
  let s0 : RStream := ⟨data, 0, false, junk, 0⟩
  let (count, s1) := readInt s0
  (loadCategories count [] s1).1

/-- The fatal duplicate diagnostic of Merge, carrying the category and key
printed by the diag_errx call. -/
inductive MergeError where
  | duplicatePlugin (category key : List Nat)
deriving DecidableEq, Repr

/-- Inner Merge loop over the entries of one incoming category: when the
key is already present and duplicates are rejected the run aborts with the
duplicate diagnostic, otherwise map::insert adds the entry, keeping an
existing one on collision. -/
def mergeEntries (strict : Bool) (catId : List Nat) :
    EntryMap → Catalog → Except MergeError Catalog
  | [], acc => .ok acc
  | (k, e) :: rest, acc =>
    if keyInCat acc catId k && strict then .error (.duplicatePlugin catId k)
    else mergeEntries strict catId rest (catInsertEntry acc catId k e)

/-- Outer Merge loop over the incoming categories: an absent category is
assigned wholesale, a present one is merged entry by entry. -/
def mergeCategories (strict : Bool) :
    Catalog → Catalog → Except MergeError Catalog
  | [], acc => .ok acc
  | (catId, m) :: rest, acc =>
    match mapFind catId acc with
    | some _ =>
      match mergeEntries strict catId m acc with
      | .ok acc' => mergeCategories strict rest acc'
      | .error e => .error e
    | none => mergeCategories strict rest (mapAssign catId m acc)

/-- Fold of one decoded catalog into the accumulator, the second half of
Log4J2PluginDatCombiner public Merge; strict is the no_duplicates_ flag. -/
def mergeCatalog (acc incoming : Catalog) (strict : Bool) : Except MergeError Catalog :=
  mergeCategories strict incoming acc

/-- A whole run of the combiner: each buffer is decoded and folded into the
accumulator in turn; a duplicate diagnostic aborts the run. -/
def mergeAll (junk : Nat → Nat) (strict : Bool) :
    List (List Nat) → Catalog → Except MergeError Catalog
  | [], acc => .ok acc
  | b :: bs, acc =>
    match mergeCatalog acc (loadLog4j2PluginCacheFile junk b) strict with
    | .ok acc' => mergeAll junk strict bs acc'
    | .error e => .error e

/-- A catalog built by an arbitrary sequence of single-entry insertions
through the std::map interface, in the given order. -/
def buildCatalog (ops : List (List Nat × List Nat × PluginEntry)) : Catalog :=
  ops.foldl (fun acc op => catInsertEntry acc op.1 op.2.1 op.2.2) []

/-- Entry fields are bounded and consistent with the enclosing key and
category, as the round-trip hypotheses require. -/
abbrev validEntry (cat k : List Nat) (e : PluginEntry) : Prop :=
  e.key = k ∧ e.category = cat ∧
    e.key.length ≤ 65535 ∧ e.className.length ≤ 65535 ∧ e.name.length ≤ 65535

/-- Hypotheses of claim C1 exactly as stated: every entry is keyed by its
own key field, carries the name of its category, and every string has byte
length at most 65535; sortedness is the std::map representation invariant. -/
abbrev c1Hypotheses (c : Catalog) : Prop :=
  sortedCatalogP c ∧
    ∀ p ∈ c, p.1.length ≤ 65535 ∧ ∀ q ∈ p.2, validEntry p.1 q.1 q.2

/-- Amended round-trip hypotheses: additionally every category is
non-empty and the category and entry counts fit the 4-byte count fields. -/
abbrev wellFormedCatalog (c : Catalog) : Prop :=
  sortedCatalogP c ∧ c.length < 2 ^ 32 ∧
    ∀ p ∈ c, p.1.length ≤ 65535 ∧ p.2 ≠ [] ∧ p.2.length < 2 ^ 32 ∧
      ∀ q ∈ p.2, validEntry p.1 q.1 q.2

/-- Every entry of the catalog carries the name of the category map that
holds it, the invariant of claim C9. -/
abbrev wellCategorized (c : Catalog) : Prop :=
  ∀ p ∈ c, ∀ q ∈ p.2, q.2.category = p.1

/-- The category name Core as bytes. -/
def coreB : List Nat := [67, 111, 114, 101]

/-- The key Append as bytes. -/
def appendB : List Nat := [65, 112, 112, 101, 110, 100]

/-- The display name Appender as bytes. -/
def appenderB : List Nat := [65, 112, 112, 101, 110, 100, 101, 114]

/-- The class name org.apache.logging.log4j.core.appender.Appender as
bytes; its length is 47. -/
def classNameB : List Nat :=
  [111, 114, 103, 46, 97, 112, 97, 99, 104, 101, 46, 108, 111, 103, 103, 105,
   110, 103, 46, 108, 111, 103, 52, 106, 46, 99, 111, 114, 101, 46, 97, 112,
   112, 101, 110, 100, 101, 114, 46, 65, 112, 112, 101, 110, 100, 101, 114]

/-- The single entry of the end-to-end example of the specification. -/
def exampleEntry : PluginEntry :=
  ⟨appendB, classNameB, appenderB, true, false, coreB⟩

/-- The single-record catalog of the end-to-end example. -/
def exampleCatalog : Catalog :=
  [(coreB, [(appendB, exampleEntry)])]

/-- The byte sequence the specification claims for the example, with a
className length field of 0x35. -/
def claimedExampleBytes : List Nat :=
  [0, 0, 0, 1] ++ [0, 4] ++ coreB ++ [0, 0, 0, 1] ++ [0, 6] ++ appendB ++
    [0, 53] ++ classNameB ++ [0, 8] ++ appenderB ++ [1] ++ [0]

/-- The byte sequence the encoder actually produces for the example, with
the className length field 0x2F, the true byte length 47. -/
def correctExampleBytes : List Nat :=
  [0, 0, 0, 1] ++ [0, 4] ++ coreB ++ [0, 0, 0, 1] ++ [0, 6] ++ appendB ++
    [0, 47] ++ classNameB ++ [0, 8] ++ appenderB ++ [1] ++ [0]

/-- A first entry under key k = [107] in category [67]. -/
def dupE1 : PluginEntry := ⟨[107], [99], [110], true, false, [67]⟩

/-- A second, different entry under the same key [107] in category [67]. -/
def dupE2 : PluginEntry := ⟨[107], [100], [109], false, true, [67]⟩

/-- A buffer in which the pair (category [67], key [107]) appears twice. -/
def dupBuffer : List Nat :=
  writeInt 1 ++ writeUTFString [67] ++ writeInt 2 ++ writeEntry dupE1 ++ writeEntry dupE2

/-- An accumulator entry under (Core, Append). -/
def mergeE1 : PluginEntry := ⟨appendB, [99], [110], true, false, coreB⟩

/-- A different incoming entry under (Core, Append). -/
def mergeE2 : PluginEntry := ⟨appendB, [100], [109], false, true, coreB⟩

deriving instance DecidableEq for Except

theorem strLt_irrefl (a : List Nat) : strLt a a = false := by
  induction a with
  | nil => rfl
  | cons x xs ih => simp [strLt, ih]

theorem strLt_asymm {a b : List Nat} (h : strLt a b = true) : strLt b a = false := by
  induction a generalizing b with
  | nil => cases b with
    | nil => simp [strLt] at h
    | cons y ys => simp [strLt]
  | cons x xs ih =>
    cases b with
    | nil => simp [strLt] at h
    | cons y ys =>
      simp only [strLt] at h ⊢
      rcases Nat.lt_trichotomy x y with hxy | hxy | hxy
      · simp [hxy, Nat.lt_asymm hxy, Nat.ne_of_lt hxy]
      · subst hxy
        simp only [Nat.lt_irrefl, if_false] at h ⊢
        exact ih h
      · simp [hxy, Nat.lt_asymm hxy] at h

theorem strLt_connex {a b : List Nat} (h1 : strLt a b = false) (h2 : strLt b a = false) :
    a = b := by
  induction a generalizing b with
  | nil => cases b with
    | nil => rfl
    | cons y ys => simp [strLt] at h1
  | cons x xs ih =>
    cases b with
    | nil => simp [strLt] at h2
    | cons y ys =>
      simp only [strLt] at h1 h2
      rcases Nat.lt_trichotomy x y with hxy | hxy | hxy
      · simp [hxy] at h1
      · subst hxy
        simp only [Nat.lt_irrefl, if_false] at h1 h2
        rw [ih h1 h2]
      · simp [hxy] at h2

theorem strLt_ne {a b : List Nat} (h : strLt a b = true) : a ≠ b := by
  intro he
  subst he
  rw [strLt_irrefl] at h
  exact Bool.false_ne_true h

theorem length_toBytes (w n : Nat) : (toBytes w n).length = w := by
  induction w generalizing n with
  | zero => rfl
  | succ w ih => simp [toBytes, ih]

theorem beVal_toBytes (w n : Nat) : beVal (toBytes w n) = n % 256 ^ w := by
  induction w generalizing n with
  | zero => simp [toBytes, beVal, Nat.mod_one]
  | succ w ih =>
    simp only [toBytes, beVal, List.foldl_append, List.foldl_cons, List.foldl_nil]
    have h1 : (toBytes w (n / 256)).foldl (fun a b => a * 256 + b % 256) 0 = n / 256 % 256 ^ w :=
      ih _
    have h2 : n % (256 * 256 ^ w) = n % 256 + 256 * (n / 256 % 256 ^ w) := Nat.mod_mul
    have h3 : (256 : Nat) ^ (w + 1) = 256 * 256 ^ w := by ring
    rw [h1, h3, h2, Nat.mod_mod_of_dvd n (dvd_refl 256)]
    ring

theorem strLt_trans {a b cc : List Nat} (h1 : strLt a b = true) (h2 : strLt b cc = true) :
    strLt a cc = true := by
  induction a generalizing b cc with
  | nil =>
    cases cc with
    | nil =>
      cases b with
      | nil => exact h1
      | cons y ys => simp [strLt] at h2
    | cons z zs => simp [strLt]
  | cons x xs ih =>
    cases b with
    | nil => simp [strLt] at h1
    | cons y ys =>
      cases cc with
      | nil => simp [strLt] at h2
      | cons z zs =>
        simp only [strLt] at h1 h2 ⊢
        rcases Nat.lt_trichotomy x y with hxy | hxy | hxy
        · rcases Nat.lt_trichotomy y z with hyz | hyz | hyz
          · simp [Nat.lt_trans hxy hyz]
          · subst hyz
            simp [hxy]
          · simp [hyz, Nat.lt_asymm hyz] at h2
        · subst hxy
          simp only [Nat.lt_irrefl, if_false] at h1
          rcases Nat.lt_trichotomy x z with hxz | hxz | hxz
          · simp [hxz]
          · subst hxz
            simp only [Nat.lt_irrefl, if_false] at h2 ⊢
            exact ih h1 h2
          · simp [hxz, Nat.lt_asymm hxz] at h2
        · simp [hxy, Nat.lt_asymm hxy] at h1

theorem drop_after {d xs rest : List Nat} {p : Nat} (hp : p ≤ d.length)
    (hd : d.drop p = xs ++ rest) :
    d.drop (p + xs.length) = rest ∧ p + xs.length ≤ d.length := by
  have hlen : d.length - p = xs.length + rest.length := by
    have := congrArg List.length hd
    simpa [List.length_drop] using this
  constructor
  · rw [← List.drop_drop, hd, List.drop_left]
  · omega

theorem readRaw_ok (d xs rest : List Nat) (p : Nat) (j : Nat → Nat) (c n : Nat)
    (hp : p ≤ d.length) (hd : d.drop p = xs ++ rest) (hn : xs.length = n) :
    readRaw n ⟨d, p, false, j, c⟩ = (some xs, ⟨d, p + n, false, j, c⟩) := by
  have hlen : d.length - p = xs.length + rest.length := by
    have := congrArg List.length hd
    simpa [List.length_drop] using this
  have hle : p + n ≤ d.length := by omega
  have htake : (d.drop p).take n = xs := by
    rw [hd, ← hn, List.take_left]
  simp [readRaw, hle, htake]

theorem readInt_ok (d rest : List Nat) (p : Nat) (j : Nat → Nat) (c v : Nat)
    (hp : p ≤ d.length) (hd : d.drop p = writeInt v ++ rest) :
    readInt ⟨d, p, false, j, c⟩ = (v % 2 ^ 32, ⟨d, p + 4, false, j, c⟩) := by
  have h4 : (writeInt v).length = 4 := by simp [writeInt, length_toBytes]
  have hr := readRaw_ok d (writeInt v) rest p j c 4 hp hd h4
  have hbe : beVal (writeInt v) = v % 2 ^ 32 := by
    have := beVal_toBytes 4 v
    norm_num at this ⊢
    exact this
  rw [readInt, hr]
  simp [hbe]

theorem readChunk_ok (d xs rest : List Nat) (p : Nat) (j : Nat → Nat) (c n : Nat)
    (_hp : p ≤ d.length) (hd : d.drop p = xs ++ rest) (hn : xs.length = n) :
    readChunk n ⟨d, p, false, j, c⟩ = (xs, ⟨d, p + n, false, j, c⟩) := by
  have hlen : d.length - p = xs.length + rest.length := by
    have := congrArg List.length hd
    simpa [List.length_drop] using this
  have hle : n ≤ d.length - p := by omega
  have htake : (d.drop p).take n = xs := by
    rw [hd, ← hn, List.take_left]
  simp [readChunk, hle, htake]

theorem readUTFString_ok (d str rest : List Nat) (p : Nat) (j : Nat → Nat) (c : Nat)
    (hp : p ≤ d.length) (hd : d.drop p = writeUTFString str ++ rest)
    (hlen : str.length ≤ 65535) :
    readUTFString ⟨d, p, false, j, c⟩ =
      (str, ⟨d, p + 2 + str.length, false, j, c⟩) := by
  have hd2 : d.drop p = toBytes 2 str.length ++ (str ++ rest) := by
    simpa [writeUTFString] using hd
  have h2 : (toBytes 2 str.length).length = 2 := length_toBytes 2 _
  have hr := readRaw_ok d (toBytes 2 str.length) (str ++ rest) p j c 2 hp hd2 h2
  have hbe : beVal (toBytes 2 str.length) = str.length := by
    rw [beVal_toBytes]
    exact Nat.mod_eq_of_lt (by norm_num; omega)
  have hadv := drop_after hp hd2
  rw [h2] at hadv
  have hc := readChunk_ok d str rest (p + 2) j c str.length hadv.2 hadv.1 rfl
  rw [readUTFString, hr]
  simp only [hbe, hc]

theorem readBool_ok (d rest : List Nat) (p : Nat) (j : Nat → Nat) (c : Nat) (b : Bool)
    (hp : p ≤ d.length) (hd : d.drop p = writeBoolean b ++ rest) :
    readBool ⟨d, p, false, j, c⟩ = (b, ⟨d, p + 1, false, j, c⟩) := by
  have h1 : (writeBoolean b).length = 1 := by cases b <;> rfl
  have hr := readRaw_ok d (writeBoolean b) rest p j c 1 hp hd h1
  rw [readBool, hr]
  cases b <;> simp [writeBoolean]

theorem loadEntry_ok (d rest : List Nat) (p : Nat) (j : Nat → Nat) (c : Nat)
    (cat : List Nat) (e : PluginEntry)
    (hp : p ≤ d.length) (hd : d.drop p = writeEntry e ++ rest)
    (hk : e.key.length ≤ 65535) (hc : e.className.length ≤ 65535)
    (hn : e.name.length ≤ 65535) :
    loadEntry cat ⟨d, p, false, j, c⟩ =
      (⟨e.key, e.className, e.name, e.printable, e.defer, cat⟩,
        ⟨d, p + (writeEntry e).length, false, j, c⟩) := by
  have hlenK : (writeUTFString e.key).length = 2 + e.key.length := by
    simp [writeUTFString, length_toBytes]
  have hlenC : (writeUTFString e.className).length = 2 + e.className.length := by
    simp [writeUTFString, length_toBytes]
  have hlenN : (writeUTFString e.name).length = 2 + e.name.length := by
    simp [writeUTFString, length_toBytes]
  have hlenP : (writeBoolean e.printable).length = 1 := by cases e.printable <;> rfl
  have hd1 : d.drop p = writeUTFString e.key ++
      (writeUTFString e.className ++ writeUTFString e.name ++
        writeBoolean e.printable ++ writeBoolean e.defer ++ rest) := by
    simpa [writeEntry, List.append_assoc] using hd
  have h1 := readUTFString_ok d e.key _ p j c hp hd1 hk
  have hadv1 := drop_after hp hd1
  rw [hlenK] at hadv1
  have hq1 : p + (2 + e.key.length) = p + 2 + e.key.length := by omega
  rw [hq1] at hadv1
  have hd2 : d.drop (p + 2 + e.key.length) = writeUTFString e.className ++
      (writeUTFString e.name ++ writeBoolean e.printable ++ writeBoolean e.defer ++ rest) := by
    rw [hadv1.1]
    simp [List.append_assoc]
  have h2 := readUTFString_ok d e.className _ _ j c hadv1.2 hd2 hc
  have hadv2 := drop_after hadv1.2 hd2
  rw [hlenC] at hadv2
  have hq2 : p + 2 + e.key.length + (2 + e.className.length) =
      p + 2 + e.key.length + 2 + e.className.length := by omega
  rw [hq2] at hadv2
  have hd3 : d.drop (p + 2 + e.key.length + 2 + e.className.length) =
      writeUTFString e.name ++
        (writeBoolean e.printable ++ writeBoolean e.defer ++ rest) := by
    rw [hadv2.1]
    simp [List.append_assoc]
  have h3 := readUTFString_ok d e.name _ _ j c hadv2.2 hd3 hn
  have hadv3 := drop_after hadv2.2 hd3
  rw [hlenN] at hadv3
  have hq3 : p + 2 + e.key.length + 2 + e.className.length + (2 + e.name.length) =
      p + 2 + e.key.length + 2 + e.className.length + 2 + e.name.length := by omega
  rw [hq3] at hadv3
  have hd4 : d.drop (p + 2 + e.key.length + 2 + e.className.length + 2 + e.name.length) =
      writeBoolean e.printable ++ (writeBoolean e.defer ++ rest) := by
    rw [hadv3.1]
    simp [List.append_assoc]
  have h4 := readBool_ok d _ _ j c e.printable hadv3.2 hd4
  have hadv4 := drop_after hadv3.2 hd4
  rw [hlenP] at hadv4
  have h5 := readBool_ok d rest _ j c e.defer hadv4.2 hadv4.1
  have hwlen : p + 2 + e.key.length + 2 + e.className.length + 2 + e.name.length + 1 + 1 =
      p + (writeEntry e).length := by
    have : (writeEntry e).length =
        (2 + e.key.length) + ((2 + e.className.length) + ((2 + e.name.length) + (1 + 1))) := by
      simp [writeEntry, hlenK, hlenC, hlenN, hlenP, List.length_append]
      cases e.defer <;> simp [writeBoolean]
    omega
  simp only [loadEntry, h1, h2, h3, h4, h5, hwlen]

theorem mapInsert_gt {α : Type} {m : List (List Nat × α)} {k : List Nat} {v : α}
    (h : ∀ x ∈ m, strLt x.1 k = true) : mapInsert k v m = m ++ [(k, v)] := by
  induction m with
  | nil => rfl
  | cons hd tl ih =>
    obtain ⟨k', v'⟩ := hd
    have hk' : strLt k' k = true := h (k', v') (by simp)
    have hkk' : strLt k k' = false := strLt_asymm hk'
    simp only [mapInsert, hkk', hk', if_false, if_true, Bool.false_eq_true, ite_false, ite_true,
      List.cons_append]
    rw [ih (fun x hx => h x (by simp [hx]))]

theorem catInsertEntry_gt {cc : Catalog} {cat k : List Nat} {e : PluginEntry}
    (h : ∀ x ∈ cc, strLt x.1 cat = true) :
    catInsertEntry cc cat k e = cc ++ [(cat, [(k, e)])] := by
  induction cc with
  | nil => rfl
  | cons hd tl ih =>
    obtain ⟨c0, m0⟩ := hd
    have h0 : strLt c0 cat = true := h (c0, m0) (by simp)
    have h0' : strLt cat c0 = false := strLt_asymm h0
    simp only [catInsertEntry, h0, h0', Bool.false_eq_true, ite_false, ite_true,
      List.cons_append]
    rw [ih (fun x hx => h x (by simp [hx]))]

theorem catInsertEntry_last {cc : Catalog} {cat k : List Nat} {pm : EntryMap} {e : PluginEntry}
    (h : ∀ x ∈ cc, strLt x.1 cat = true) :
    catInsertEntry (cc ++ [(cat, pm)]) cat k e = cc ++ [(cat, mapInsert k e pm)] := by
  induction cc with
  | nil => simp [catInsertEntry, strLt_irrefl]
  | cons hd tl ih =>
    obtain ⟨c0, m0⟩ := hd
    have h0 : strLt c0 cat = true := h (c0, m0) (by simp)
    have h0' : strLt cat c0 = false := strLt_asymm h0
    simp only [List.cons_append, catInsertEntry, h0, h0', Bool.false_eq_true, ite_false,
      ite_true, List.append_eq]
    rw [ih (fun x hx => h x (by simp [hx]))]

theorem loadEntries_go (cat : List Nat) (m : EntryMap) :
    ∀ (pm : EntryMap) (acc : Catalog) (d : List Nat) (p : Nat) (j : Nat → Nat) (c : Nat)
      (rest : List Nat),
    (∀ q ∈ m, validEntry cat q.1 q.2) →
    sortedMapP m →
    (∀ x ∈ acc, strLt x.1 cat = true) →
    (∀ x ∈ pm, ∀ y ∈ m, strLt x.1 y.1 = true) →
    p ≤ d.length → d.drop p = writeEntries m ++ rest →
    loadEntries cat m.length (acc ++ [(cat, pm)]) ⟨d, p, false, j, c⟩ =
      (acc ++ [(cat, pm ++ m)], ⟨d, p + (writeEntries m).length, false, j, c⟩) := by
  induction m with
  | nil =>
    intro pm acc d p j c rest _ _ _ _ _ _
    simp [loadEntries, writeEntries]
  | cons q m' ih =>
    intro pm acc d p j c rest hval hsort hacc hpm hp hd
    obtain ⟨k, e⟩ := q
    have hv := hval (k, e) (by simp)
    have hkey : e.key = k := hv.1
    have hd1 : d.drop p = writeEntry e ++ (writeEntries m' ++ rest) := by
      simpa [writeEntries, List.append_assoc] using hd
    have hL := loadEntry_ok d _ p j c cat e hp hd1 hv.2.2.1 hv.2.2.2.1 hv.2.2.2.2
    have hle : (⟨k, e.className, e.name, e.printable, e.defer, cat⟩ : PluginEntry) = e := by
      have hcat : e.category = cat := hv.2.1
      obtain ⟨ek, ecn, enm, epr, edf, ecat⟩ := e
      simp only at hcat hkey
      simp [hcat, hkey]
    have hadv := drop_after hp hd1
    have hins : catInsertEntry (acc ++ [(cat, pm)]) cat k e =
        acc ++ [(cat, pm ++ [(k, e)])] := by
      rw [catInsertEntry_last hacc, mapInsert_gt (fun x hx => hpm x hx (k, e) (by simp))]
    have hrec := ih (pm ++ [(k, e)]) acc d (p + (writeEntry e).length) j c rest
      (fun q hq => hval q (by simp [hq]))
      (List.Pairwise.sublist (List.sublist_cons_self _ _) hsort)
      hacc
      (by
        intro x hx y hy
        rcases List.mem_append.mp hx with hx' | hx'
        · exact hpm x hx' y (by simp [hy])
        · have hx2 : x = (k, e) := by simpa using hx'
          subst hx2
          exact List.rel_of_pairwise_cons hsort hy)
      hadv.2 hadv.1
    simp only [List.length_cons, loadEntries, hL, hle, hkey, hins, hrec]
    have hfin : p + (writeEntry e).length + (writeEntries m').length =
        p + (writeEntries ((k, e) :: m')).length := by
      simp [writeEntries, List.length_append]
      omega
    rw [hfin]
    simp [List.append_assoc]

theorem loadEntries_new (cat : List Nat) (m : EntryMap) (acc : Catalog) (d : List Nat)
    (p : Nat) (j : Nat → Nat) (c : Nat) (rest : List Nat)
    (hval : ∀ q ∈ m, validEntry cat q.1 q.2) (hsort : sortedMapP m) (hne : m ≠ [])
    (hacc : ∀ x ∈ acc, strLt x.1 cat = true)
    (hp : p ≤ d.length) (hd : d.drop p = writeEntries m ++ rest) :
    loadEntries cat m.length acc ⟨d, p, false, j, c⟩ =
      (acc ++ [(cat, m)], ⟨d, p + (writeEntries m).length, false, j, c⟩) := by
  cases m with
  | nil => exact absurd rfl hne
  | cons q m' =>
    obtain ⟨k, e⟩ := q
    have hv := hval (k, e) (by simp)
    have hkey : e.key = k := hv.1
    have hd1 : d.drop p = writeEntry e ++ (writeEntries m' ++ rest) := by
      simpa [writeEntries, List.append_assoc] using hd
    have hL := loadEntry_ok d _ p j c cat e hp hd1 hv.2.2.1 hv.2.2.2.1 hv.2.2.2.2
    have hle : (⟨k, e.className, e.name, e.printable, e.defer, cat⟩ : PluginEntry) = e := by
      have hcat : e.category = cat := hv.2.1
      obtain ⟨ek, ecn, enm, epr, edf, ecat⟩ := e
      simp only at hcat hkey
      simp [hcat, hkey]
    have hadv := drop_after hp hd1
    have hins : catInsertEntry acc cat k e = acc ++ [(cat, [(k, e)])] :=
      catInsertEntry_gt hacc
    have hrec := loadEntries_go cat m' [(k, e)] acc d (p + (writeEntry e).length) j c rest
      (fun q hq => hval q (by simp [hq]))
      (List.Pairwise.sublist (List.sublist_cons_self _ _) hsort)
      hacc
      (by
        intro x hx y hy
        have hx2 : x = (k, e) := by simpa using hx
        subst hx2
        exact List.rel_of_pairwise_cons hsort hy)
      hadv.2 hadv.1
    simp only [List.length_cons, loadEntries, hL, hle, hkey, hins, hrec]
    have hfin : p + (writeEntry e).length + (writeEntries m').length =
        p + (writeEntries ((k, e) :: m')).length := by
      simp [writeEntries, List.length_append]
      omega
    rw [hfin]
    simp

theorem loadCategories_ok (cs : Catalog) :
    ∀ (acc : Catalog) (d : List Nat) (p : Nat) (j : Nat → Nat) (jc : Nat) (rest : List Nat),
    sortedMapP cs →
    (∀ pc ∈ cs, pc.1.length ≤ 65535 ∧ pc.2 ≠ [] ∧ pc.2.length < 2 ^ 32 ∧
      sortedMapP pc.2 ∧ ∀ q ∈ pc.2, validEntry pc.1 q.1 q.2) →
    (∀ x ∈ acc, ∀ y ∈ cs, strLt x.1 y.1 = true) →
    p ≤ d.length → d.drop p = writeCategories cs ++ rest →
    loadCategories cs.length acc ⟨d, p, false, j, jc⟩ =
      (acc ++ cs, ⟨d, p + (writeCategories cs).length, false, j, jc⟩) := by
  induction cs with
  | nil =>
    intro acc d p j jc rest _ _ _ _ _
    simp [loadCategories, writeCategories]
  | cons pc cs' ih =>
    intro acc d p j jc rest hsort hval hacc hp hd
    obtain ⟨cat, m⟩ := pc
    have hv := hval (cat, m) (by simp)
    have hd1 : d.drop p = writeUTFString cat ++
        (writeInt m.length ++ (writeEntries m ++ (writeCategories cs' ++ rest))) := by
      simpa [writeCategories, List.append_assoc] using hd
    have h1 := readUTFString_ok d cat _ p j jc hp hd1 hv.1
    have hadv1 := drop_after hp hd1
    have hlen1 : (writeUTFString cat).length = 2 + cat.length := by
      simp [writeUTFString, length_toBytes]
    rw [hlen1] at hadv1
    have hq1 : p + (2 + cat.length) = p + 2 + cat.length := by omega
    rw [hq1] at hadv1
    have h2 := readInt_ok d _ (p + 2 + cat.length) j jc m.length hadv1.2 hadv1.1
    have hm32 : m.length % 2 ^ 32 = m.length := Nat.mod_eq_of_lt hv.2.2.1
    have hadv2 := drop_after hadv1.2 hadv1.1
    have hlen2 : (writeInt m.length).length = 4 := by simp [writeInt, length_toBytes]
    rw [hlen2] at hadv2
    have hd3 : d.drop (p + 2 + cat.length + 4) =
        writeEntries m ++ (writeCategories cs' ++ rest) := hadv2.1
    have h3 := loadEntries_new cat m acc d (p + 2 + cat.length + 4) j jc
      (writeCategories cs' ++ rest) hv.2.2.2.2 hv.2.2.2.1 hv.2.1
      (fun x hx => hacc x hx (cat, m) (by simp)) hadv2.2 hd3
    have hadv3 := drop_after hadv2.2 hd3
    have hrec := ih (acc ++ [(cat, m)]) d (p + 2 + cat.length + 4 + (writeEntries m).length)
      j jc rest
      (List.Pairwise.sublist (List.sublist_cons_self _ _) hsort)
      (fun q hq => hval q (by simp [hq]))
      (by
        intro x hx y hy
        rcases List.mem_append.mp hx with hx' | hx'
        · exact hacc x hx' y (by simp [hy])
        · have hx2 : x = (cat, m) := by simpa using hx'
          subst hx2
          exact List.rel_of_pairwise_cons hsort hy)
      hadv3.2 hadv3.1
    simp only [List.length_cons, loadCategories, h1, h2, hm32]
    rw [h3, hrec]
    have : p + 2 + cat.length + 4 + (writeEntries m).length +
          (writeCategories cs').length =
        p + (writeCategories ((cat, m) :: cs')).length := by
      simp [writeCategories, List.length_append, hlen1, hlen2]
      omega
    rw [this]
    simp [List.append_assoc]

/-- Claim C1, amended round-trip law: for every catalog in which each
entry is keyed by its own key field, each entry carries the name of the
category holding it, every string has byte length at most 65535, and
additionally every category is non-empty and the category and entry
counts fit the 4-byte count fields, decoding the encoding yields the
catalog back, for every oracle of indeterminate values. -/
theorem C1_roundtrip_amended (c : Catalog) (junk : Nat → Nat) (h : wellFormedCatalog c) :
    loadLog4j2PluginCacheFile junk (writeLog4j2PluginCacheFile c) = c := by
  obtain ⟨⟨hsort, hinner⟩, hcount, hper⟩ := h
  have hlen4 : (writeInt c.length).length = 4 := by simp [writeInt, length_toBytes]
  have hd0 : (writeInt c.length ++ writeCategories c).drop 0 =
      writeInt c.length ++ (writeCategories c ++ []) := by simp
  have h1 := readInt_ok (writeInt c.length ++ writeCategories c) (writeCategories c ++ [])
    0 junk 0 c.length (by simp) hd0
  have hadv := drop_after (p := 0) (by simp) hd0
  rw [hlen4] at hadv
  have h2 := loadCategories_ok c [] (writeInt c.length ++ writeCategories c) (0 + 4) junk 0 []
    hsort
    (fun pc hpc => ⟨(hper pc hpc).1, (hper pc hpc).2.1, (hper pc hpc).2.2.1,
      hinner pc hpc, (hper pc hpc).2.2.2⟩)
    (by simp) hadv.2 hadv.1
  have hm : c.length % 2 ^ 32 = c.length := Nat.mod_eq_of_lt hcount
  show loadLog4j2PluginCacheFile junk (writeInt c.length ++ writeCategories c) = c
  simp only [loadLog4j2PluginCacheFile, h1, hm, h2]
  simp

/-- Claim C1 counterexample: the catalog with the single category A and no
entries satisfies the hypotheses of the claim as stated, yet decoding its
encoding loses the empty category, because the decoder materializes a
category only when it inserts an entry into it. -/
theorem C1_counterexample :
    c1Hypotheses [([65], [])] ∧
      loadLog4j2PluginCacheFile (fun _ => 0)
        (writeLog4j2PluginCacheFile [([65], [])]) ≠ [([65], [])] := by
  constructor
  · refine ⟨⟨?_, ?_⟩, ?_⟩ <;> simp [sortedMapP]
  · decide

/-- Claim C1 witness: a concrete single-entry catalog round-trips. -/
theorem C1_roundtrip_amended_witness :
    wellFormedCatalog [([67], [([75], ⟨[75], [99], [110], true, false, [67]⟩)])] ∧
      loadLog4j2PluginCacheFile (fun _ => 0)
        (writeLog4j2PluginCacheFile
          [([67], [([75], ⟨[75], [99], [110], true, false, [67]⟩)])]) =
        [([67], [([75], ⟨[75], [99], [110], true, false, [67]⟩)])] :=
  ⟨by decide, C1_roundtrip_amended _ _ (by decide)⟩

theorem mapInsert_mem {α : Type} {m : List (List Nat × α)} {x : List Nat × α}
    {k : List Nat} {v : α} (h : x ∈ mapInsert k v m) : x = (k, v) ∨ x ∈ m := by
  induction m with
  | nil => simpa [mapInsert] using h
  | cons hd tl ih =>
    obtain ⟨k', v'⟩ := hd
    by_cases h1 : strLt k k' = true
    · rw [mapInsert, if_pos h1] at h
      rcases List.mem_cons.mp h with h | h
      · exact Or.inl h
      · exact Or.inr h
    · by_cases h2 : strLt k' k = true
      · rw [mapInsert, if_neg h1, if_pos h2] at h
        rcases List.mem_cons.mp h with h | h
        · exact Or.inr (List.mem_cons.mpr (Or.inl h))
        · rcases ih h with h3 | h3
          · exact Or.inl h3
          · exact Or.inr (List.mem_cons.mpr (Or.inr h3))
      · rw [mapInsert, if_neg h1, if_neg h2] at h
        exact Or.inr h

theorem mapAssign_mem {α : Type} {m : List (List Nat × α)} {x : List Nat × α}
    {k : List Nat} {v : α} (h : x ∈ mapAssign k v m) : x = (k, v) ∨ x ∈ m := by
  induction m with
  | nil => simpa [mapAssign] using h
  | cons hd tl ih =>
    obtain ⟨k', v'⟩ := hd
    by_cases h1 : strLt k k' = true
    · rw [mapAssign, if_pos h1] at h
      rcases List.mem_cons.mp h with h | h
      · exact Or.inl h
      · exact Or.inr h
    · by_cases h2 : strLt k' k = true
      · rw [mapAssign, if_neg h1, if_pos h2] at h
        rcases List.mem_cons.mp h with h | h
        · exact Or.inr (List.mem_cons.mpr (Or.inl h))
        · rcases ih h with h3 | h3
          · exact Or.inl h3
          · exact Or.inr (List.mem_cons.mpr (Or.inr h3))
      · rw [mapAssign, if_neg h1, if_neg h2] at h
        rcases List.mem_cons.mp h with h | h
        · exact Or.inl h
        · exact Or.inr (List.mem_cons.mpr (Or.inr h))

theorem mapInsert_sorted {α : Type} {m : List (List Nat × α)} {k : List Nat} {v : α}
    (h : sortedMapP m) : sortedMapP (mapInsert k v m) := by
  induction m with
  | nil => simp [mapInsert, sortedMapP]
  | cons hd tl ih =>
    obtain ⟨k', v'⟩ := hd
    obtain ⟨hhead, htail⟩ := List.pairwise_cons.mp h
    by_cases h1 : strLt k k' = true
    · rw [mapInsert, if_pos h1]
      refine List.Pairwise.cons ?_ (List.Pairwise.cons hhead htail)
      intro y hy
      rcases List.mem_cons.mp hy with hy' | hy'
      · subst hy'
        exact h1
      · exact strLt_trans h1 (hhead y hy')
    · by_cases h2 : strLt k' k = true
      · rw [mapInsert, if_neg h1, if_pos h2]
        refine List.Pairwise.cons ?_ (ih htail)
        intro y hy
        rcases mapInsert_mem hy with hy' | hy'
        · subst hy'
          exact h2
        · exact hhead y hy'
      · rw [mapInsert, if_neg h1, if_neg h2]
        exact List.Pairwise.cons hhead htail

theorem mapAssign_sorted {α : Type} {m : List (List Nat × α)} {k : List Nat} {v : α}
    (h : sortedMapP m) : sortedMapP (mapAssign k v m) := by
  induction m with
  | nil => simp [mapAssign, sortedMapP]
  | cons hd tl ih =>
    obtain ⟨k', v'⟩ := hd
    obtain ⟨hhead, htail⟩ := List.pairwise_cons.mp h
    by_cases h1 : strLt k k' = true
    · rw [mapAssign, if_pos h1]
      refine List.Pairwise.cons ?_ (List.Pairwise.cons hhead htail)
      intro y hy
      rcases List.mem_cons.mp hy with hy' | hy'
      · subst hy'
        exact h1
      · exact strLt_trans h1 (hhead y hy')
    · by_cases h2 : strLt k' k = true
      · rw [mapAssign, if_neg h1, if_pos h2]
        refine List.Pairwise.cons ?_ (ih htail)
        intro y hy
        rcases mapAssign_mem hy with hy' | hy'
        · subst hy'
          exact h2
        · exact hhead y hy'
      · rw [mapAssign, if_neg h1, if_neg h2]
        have hk : k = k' := strLt_connex (by simpa using h1) (by simpa using h2)
        subst hk
        exact List.Pairwise.cons hhead htail

theorem catInsertEntry_key_mem {cc : Catalog} {x : List Nat × EntryMap}
    {cat k : List Nat} {e : PluginEntry} (h : x ∈ catInsertEntry cc cat k e) :
    x.1 = cat ∨ x.1 ∈ cc.map Prod.fst := by
  induction cc with
  | nil =>
    rcases by simpa [catInsertEntry] using h with h'
    simp [h']
  | cons hd tl ih =>
    obtain ⟨c0, m0⟩ := hd
    by_cases h1 : strLt cat c0 = true
    · rw [catInsertEntry, if_pos h1] at h
      rcases List.mem_cons.mp h with h | h
      · subst h
        exact Or.inl rfl
      · exact Or.inr (List.mem_map_of_mem Prod.fst h)
    · by_cases h2 : strLt c0 cat = true
      · rw [catInsertEntry, if_neg h1, if_pos h2] at h
        rcases List.mem_cons.mp h with h | h
        · subst h
          simp
        · rcases ih h with h3 | h3
          · exact Or.inl h3
          · simp [h3]
      · rw [catInsertEntry, if_neg h1, if_neg h2] at h
        have hk : cat = c0 := strLt_connex (by simpa using h1) (by simpa using h2)
        rcases List.mem_cons.mp h with h | h
        · subst h
          simp [hk]
        · exact Or.inr (by simp [List.mem_map_of_mem Prod.fst h])

theorem catInsertEntry_sorted {cc : Catalog} {cat k : List Nat} {e : PluginEntry}
    (h : sortedCatalogP cc) : sortedCatalogP (catInsertEntry cc cat k e) := by
  induction cc with
  | nil =>
    constructor
    · simp [catInsertEntry, sortedMapP]
    · intro p hp
      rcases by simpa [catInsertEntry] using hp with h'
      simp [h', sortedMapP]
  | cons hd tl ih =>
    obtain ⟨c0, m0⟩ := hd
    obtain ⟨hout, hin⟩ := h
    obtain ⟨hhead, htail⟩ := List.pairwise_cons.mp hout
    have hih := ih ⟨htail, fun p hp => hin p (List.mem_cons.mpr (Or.inr hp))⟩
    by_cases h1 : strLt cat c0 = true
    · rw [catInsertEntry, if_pos h1]
      constructor
      · refine List.Pairwise.cons ?_ (List.Pairwise.cons hhead htail)
        intro y hy
        rcases List.mem_cons.mp hy with hy' | hy'
        · subst hy'
          exact h1
        · exact strLt_trans h1 (hhead y hy')
      · intro p hp
        rcases List.mem_cons.mp hp with hp' | hp'
        · subst hp'
          simp [sortedMapP]
        · exact hin p hp'
    · by_cases h2 : strLt c0 cat = true
      · rw [catInsertEntry, if_neg h1, if_pos h2]
        constructor
        · refine List.Pairwise.cons ?_ hih.1
          intro y hy
          rcases catInsertEntry_key_mem hy with hy' | hy'
          · rw [hy']
            exact h2
          · rcases List.mem_map.mp hy' with ⟨z, hz, hz2⟩
            rw [← hz2]
            exact hhead z hz
        · intro p hp
          rcases List.mem_cons.mp hp with hp' | hp'
          · subst hp'
            exact hin (c0, m0) (List.mem_cons.mpr (Or.inl rfl))
          · exact hih.2 p hp'
      · rw [catInsertEntry, if_neg h1, if_neg h2]
        have hk : cat = c0 := strLt_connex (by simpa using h1) (by simpa using h2)
        constructor
        · exact List.Pairwise.cons hhead htail
        · intro p hp
          rcases List.mem_cons.mp hp with hp' | hp'
          · subst hp'
            exact mapInsert_sorted (hin (c0, m0) (List.mem_cons.mpr (Or.inl rfl)))
          · exact hin p (List.mem_cons.mpr (Or.inr hp'))

theorem mapFind_some_key_mem {α : Type} {m : List (List Nat × α)} {k : List Nat} {v : α}
    (h : mapFind k m = some v) : k ∈ m.map Prod.fst := by
  induction m with
  | nil => simp [mapFind] at h
  | cons hd tl ih =>
    obtain ⟨k', v'⟩ := hd
    by_cases he : k = k'
    · simp [he]
    · rw [mapFind, if_neg he] at h
      simp [ih h]

theorem mapFind_some_mem {α : Type} {m : List (List Nat × α)} {k : List Nat} {v : α}
    (h : mapFind k m = some v) : (k, v) ∈ m := by
  induction m with
  | nil => simp [mapFind] at h
  | cons hd tl ih =>
    obtain ⟨k', v'⟩ := hd
    by_cases he : k = k'
    · subst he
      rw [mapFind, if_pos rfl] at h
      injection h with h
      simp [h]
    · rw [mapFind, if_neg he] at h
      simp [ih h]

theorem mapInsert_of_found {α : Type} {m : List (List Nat × α)} {k : List Nat} {e : α}
    (hs : sortedMapP m) (h : (mapFind k m).isSome = true) : mapInsert k e m = m := by
  induction m with
  | nil => simp [mapFind] at h
  | cons hd tl ih =>
    obtain ⟨k', v'⟩ := hd
    obtain ⟨hhead, htail⟩ := List.pairwise_cons.mp hs
    by_cases he : k = k'
    · subst he
      rw [mapInsert, if_neg (by simp [strLt_irrefl]), if_neg (by simp [strLt_irrefl])]
    · rw [mapFind, if_neg he] at h
      have hkmem : k ∈ tl.map Prod.fst := by
        rcases Option.isSome_iff_exists.mp h with ⟨v, hv⟩
        exact mapFind_some_key_mem hv
      have hlt : strLt k' k = true := by
        rcases List.mem_map.mp hkmem with ⟨z, hz, hz2⟩
        rw [← hz2]
        exact hhead z hz
      rw [mapInsert, if_neg (by simp [strLt_asymm hlt]), if_pos hlt, ih htail h]

theorem mapFind_insert_other {α : Type} {m : List (List Nat × α)} {k0 k : List Nat} {e : α}
    (hne : k0 ≠ k) : mapFind k0 (mapInsert k e m) = mapFind k0 m := by
  induction m with
  | nil => simp [mapInsert, mapFind, hne]
  | cons hd tl ih =>
    obtain ⟨k', v'⟩ := hd
    by_cases h1 : strLt k k' = true
    · rw [mapInsert, if_pos h1, mapFind, if_neg hne]
    · by_cases h2 : strLt k' k = true
      · rw [mapInsert, if_neg h1, if_pos h2]
        by_cases he : k0 = k'
        · rw [mapFind, if_pos he, mapFind, if_pos he]
        · rw [mapFind, if_neg he, mapFind, if_neg he, ih]
      · rw [mapInsert, if_neg h1, if_neg h2]

theorem mapFind_assign_other {α : Type} {m : List (List Nat × α)} {k0 k : List Nat} {e : α}
    (hne : k0 ≠ k) : mapFind k0 (mapAssign k e m) = mapFind k0 m := by
  induction m with
  | nil => simp [mapAssign, mapFind, hne]
  | cons hd tl ih =>
    obtain ⟨k', v'⟩ := hd
    by_cases h1 : strLt k k' = true
    · rw [mapAssign, if_pos h1, mapFind, if_neg hne]
    · by_cases h2 : strLt k' k = true
      · rw [mapAssign, if_neg h1, if_pos h2]
        by_cases he : k0 = k'
        · rw [mapFind, if_pos he, mapFind, if_pos he]
        · rw [mapFind, if_neg he, mapFind, if_neg he, ih]
      · have hk : k = k' := strLt_connex (by simpa using h1) (by simpa using h2)
        rw [mapAssign, if_neg h1, if_neg h2, mapFind, if_neg hne, mapFind, if_neg (hk ▸ hne)]

theorem catFind_insert_other {cc : Catalog} {cat0 cat k : List Nat} {e : PluginEntry}
    (hne : cat0 ≠ cat) : mapFind cat0 (catInsertEntry cc cat k e) = mapFind cat0 cc := by
  induction cc with
  | nil => simp [catInsertEntry, mapFind, hne]
  | cons hd tl ih =>
    obtain ⟨c0, m0⟩ := hd
    by_cases h1 : strLt cat c0 = true
    · rw [catInsertEntry, if_pos h1, mapFind, if_neg hne]
    · by_cases h2 : strLt c0 cat = true
      · rw [catInsertEntry, if_neg h1, if_pos h2]
        by_cases he : cat0 = c0
        · rw [mapFind, if_pos he, mapFind, if_pos he]
        · rw [mapFind, if_neg he, mapFind, if_neg he, ih]
      · have hk : cat = c0 := strLt_connex (by simpa using h1) (by simpa using h2)
        rw [catInsertEntry, if_neg h1, if_neg h2, mapFind, if_neg (hk ▸ hne), mapFind,
          if_neg (hk ▸ hne)]

theorem catFind_insert_self {cc : Catalog} {cat k : List Nat} {e : PluginEntry} {m0 : EntryMap}
    (hs : sortedMapP cc) (h : mapFind cat cc = some m0) :
    mapFind cat (catInsertEntry cc cat k e) = some (mapInsert k e m0) := by
  induction cc with
  | nil => simp [mapFind] at h
  | cons hd tl ih =>
    obtain ⟨c0, mh⟩ := hd
    obtain ⟨hhead, htail⟩ := List.pairwise_cons.mp hs
    by_cases he : cat = c0
    · subst he
      rw [mapFind, if_pos rfl] at h
      injection h with h
      rw [catInsertEntry, if_neg (by simp [strLt_irrefl]), if_neg (by simp [strLt_irrefl]),
        mapFind, if_pos rfl, h]
    · rw [mapFind, if_neg he] at h
      have hmem : cat ∈ tl.map Prod.fst := mapFind_some_key_mem h
      have hlt : strLt c0 cat = true := by
        rcases List.mem_map.mp hmem with ⟨z, hz, hz2⟩
        rw [← hz2]
        exact hhead z hz
      rw [catInsertEntry, if_neg (by simp [strLt_asymm hlt]), if_pos hlt, mapFind, if_neg he,
        ih htail h]

theorem catLookup_insert_preserved {acc : Catalog} {cat0 k0 cat k : List Nat}
    {e v : PluginEntry} (hs : sortedCatalogP acc) (h : catLookup acc cat0 k0 = some v) :
    catLookup (catInsertEntry acc cat k e) cat0 k0 = some v := by
  by_cases hc : cat0 = cat
  · subst hc
    cases hm : mapFind cat0 acc with
    | none =>
      simp only [catLookup, hm] at h
      exact Option.noConfusion h
    | some mm =>
      simp only [catLookup, hm] at h
      simp only [catLookup, catFind_insert_self hs.1 hm]
      have hmmsort : sortedMapP mm := hs.2 (cat0, mm) (mapFind_some_mem hm)
      by_cases hk : k0 = k
      · subst hk
        rw [mapInsert_of_found hmmsort (by simp [h])]
        exact h
      · rw [mapFind_insert_other hk]
        exact h
  · rw [catLookup, catFind_insert_other hc]
    exact h

theorem catLookup_assign_other {acc : Catalog} {cat0 k0 cat : List Nat} {m : EntryMap}
    (hne : cat0 ≠ cat) :
    catLookup (mapAssign cat m acc) cat0 k0 = catLookup acc cat0 k0 := by
  rw [catLookup, mapFind_assign_other hne, catLookup]

theorem catAssign_sorted {acc : Catalog} {cat : List Nat} {m : EntryMap}
    (ha : sortedCatalogP acc) (hm : sortedMapP m) : sortedCatalogP (mapAssign cat m acc) := by
  constructor
  · exact mapAssign_sorted ha.1
  · intro p hp
    rcases mapAssign_mem hp with hp' | hp'
    · subst hp'
      exact hm
    · exact ha.2 p hp'

theorem mergeEntries_false (catId : List Nat) (m : EntryMap) :
    ∀ acc : Catalog, mergeEntries false catId m acc =
      .ok (m.foldl (fun a q => catInsertEntry a catId q.1 q.2) acc) := by
  induction m with
  | nil => intro acc; rfl
  | cons q m' ih =>
    intro acc
    obtain ⟨k, e⟩ := q
    simp only [mergeEntries, Bool.and_false, Bool.false_eq_true, ite_false, List.foldl_cons]
    exact ih _

theorem foldl_insert_sorted (catId : List Nat) (m : EntryMap) :
    ∀ acc : Catalog, sortedCatalogP acc →
      sortedCatalogP (m.foldl (fun a q => catInsertEntry a catId q.1 q.2) acc) := by
  induction m with
  | nil => intro acc h; exact h
  | cons q m' ih =>
    intro acc h
    exact ih _ (catInsertEntry_sorted h)

theorem foldl_insert_lookup (catId : List Nat) (m : EntryMap) :
    ∀ (acc : Catalog) (cat0 k0 : List Nat) (v : PluginEntry), sortedCatalogP acc →
      catLookup acc cat0 k0 = some v →
      catLookup (m.foldl (fun a q => catInsertEntry a catId q.1 q.2) acc) cat0 k0 = some v := by
  induction m with
  | nil => intro acc cat0 k0 v _ h; exact h
  | cons q m' ih =>
    intro acc cat0 k0 v hs h
    exact ih _ cat0 k0 v (catInsertEntry_sorted hs) (catLookup_insert_preserved hs h)

theorem mergeCategories_false_spec (inc : Catalog) :
    ∀ acc : Catalog, sortedCatalogP acc → (∀ p ∈ inc, sortedMapP p.2) →
    ∃ r, mergeCategories false inc acc = .ok r ∧ sortedCatalogP r ∧
      ∀ cat k v, catLookup acc cat k = some v → catLookup r cat k = some v := by
  induction inc with
  | nil =>
    intro acc ha _
    exact ⟨acc, rfl, ha, fun _ _ _ h => h⟩
  | cons p inc' ih =>
    intro acc ha hi
    obtain ⟨catId, m⟩ := p
    have hmsort : sortedMapP m := hi (catId, m) (List.mem_cons.mpr (Or.inl rfl))
    cases hfind : mapFind catId acc with
    | some m0 =>
      obtain ⟨r, h1, h2, h3⟩ := ih
        (m.foldl (fun a q => catInsertEntry a catId q.1 q.2) acc)
        (foldl_insert_sorted catId m acc ha)
        (fun p hp => hi p (List.mem_cons.mpr (Or.inr hp)))
      refine ⟨r, ?_, h2, ?_⟩
      · simp only [mergeCategories, hfind, mergeEntries_false]
        exact h1
      · intro cat k v hv
        exact h3 cat k v (foldl_insert_lookup catId m acc cat k v ha hv)
    | none =>
      obtain ⟨r, h1, h2, h3⟩ := ih (mapAssign catId m acc)
        (catAssign_sorted ha hmsort)
        (fun p hp => hi p (List.mem_cons.mpr (Or.inr hp)))
      refine ⟨r, ?_, h2, ?_⟩
      · simp only [mergeCategories, hfind]
        exact h1
      · intro cat k v hv
        have hne : cat ≠ catId := by
          intro he
          subst he
          simp only [catLookup, hfind] at hv
          exact Option.noConfusion hv
        exact h3 cat k v ((catLookup_assign_other hne).symm ▸ hv)

theorem decode_dup_keeps_first (cat k : List Nat) (e1 e2 : PluginEntry) (junk : Nat → Nat)
    (hcat : cat.length ≤ 65535) (hklen : k.length ≤ 65535)
    (hk1 : e1.key = k) (hk2 : e2.key = k)
    (h1c : e1.className.length ≤ 65535) (h1n : e1.name.length ≤ 65535)
    (h2c : e2.className.length ≤ 65535) (h2n : e2.name.length ≤ 65535) :
    loadLog4j2PluginCacheFile junk
      (writeInt 1 ++ (writeUTFString cat ++ (writeInt 2 ++ (writeEntry e1 ++ writeEntry e2)))) =
      [(cat, [(k, ⟨k, e1.className, e1.name, e1.printable, e1.defer, cat⟩)])] := by
  have h1k : e1.key.length ≤ 65535 := by rw [hk1]; exact hklen
  have h2k : e2.key.length ≤ 65535 := by rw [hk2]; exact hklen
  set B := writeInt 1 ++ (writeUTFString cat ++ (writeInt 2 ++ (writeEntry e1 ++ writeEntry e2)))
    with hB
  have hlen4 : (writeInt 1).length = 4 := by simp [writeInt, length_toBytes]
  have hlen4b : (writeInt 2).length = 4 := by simp [writeInt, length_toBytes]
  have hlenC : (writeUTFString cat).length = 2 + cat.length := by
    simp [writeUTFString, length_toBytes]
  have hd0 : B.drop 0 =
      writeInt 1 ++ (writeUTFString cat ++ (writeInt 2 ++ (writeEntry e1 ++ writeEntry e2))) := by
    rw [List.drop_zero]
  have r1 := readInt_ok B _ 0 junk 0 1 (by simp) hd0
  simp only [] at r1
  have adv1 := drop_after (p := 0) (by simp) hd0
  rw [hlen4] at adv1
  have r2 := readUTFString_ok B cat _ 4 junk 0 adv1.2 adv1.1 hcat
  simp only [] at r2
  have adv2 := drop_after adv1.2 adv1.1
  rw [hlenC] at adv2
  have hq2 : 4 + (2 + cat.length) = 6 + cat.length := by omega
  rw [hq2] at adv2
  have r3 := readInt_ok B _ (6 + cat.length) junk 0 2 adv2.2 adv2.1
  simp only [] at r3
  have adv3 := drop_after adv2.2 adv2.1
  rw [hlen4b] at adv3
  have r4 := loadEntry_ok B _ (6 + cat.length + 4) junk 0 cat e1 adv3.2 adv3.1 h1k h1c h1n
  have adv4 := drop_after adv3.2 adv3.1
  have hd5 : B.drop (6 + cat.length + 4 + (writeEntry e1).length) = writeEntry e2 ++ [] := by
    rw [adv4.1]
    simp
  have r5 := loadEntry_ok B [] (6 + cat.length + 4 + (writeEntry e1).length) junk 0 cat e2
    adv4.2 hd5 h2k h2c h2n
  show loadLog4j2PluginCacheFile junk B = _
  simp only [loadLog4j2PluginCacheFile, r1, loadCategories, r2, r3, loadEntries, r4, hk1,
    catInsertEntry, r5, hk2]
  simp [mapInsert, strLt_irrefl]

/-- Claim C2 counterexample: merging two sorted catalogs that both hold
(Core, Append) with strict disabled does NOT leave the incoming (second)
entry in the accumulator, contradicting last-processed-wins. -/
theorem C2_counterexample :
    mergeCatalog [(coreB, [(appendB, mergeE1)])] [(coreB, [(appendB, mergeE2)])] false ≠
      Except.ok [(coreB, [(appendB, mergeE2)])] := by decide

/-- Claim C2, amended: when a (category, key) pair exists in both catalogs
and strict is false, the merge succeeds and the accumulator RETAINS its
existing entry for that pair; the incoming entry is discarded, because the
source inserts with map::insert, which keeps the existing binding. -/
theorem C2_merge_keeps_existing (acc inc : Catalog) (cat k : List Nat) (e : PluginEntry)
    (ha : sortedCatalogP acc) (hi : ∀ p ∈ inc, sortedMapP p.2)
    (hlook : catLookup acc cat k = some e) :
    ∃ r, mergeCatalog acc inc false = .ok r ∧ catLookup r cat k = some e := by
  obtain ⟨r, h1, _, h3⟩ := mergeCategories_false_spec inc acc ha hi
  exact ⟨r, h1, h3 cat k e hlook⟩

/-- Claim C2 witness: merging the concrete Core and Append catalogs with
strict disabled keeps the first entry. -/
theorem C2_merge_keeps_existing_witness :
    ∃ r, mergeCatalog [(coreB, [(appendB, mergeE1)])] [(coreB, [(appendB, mergeE2)])] false =
        Except.ok r ∧ catLookup r coreB appendB = some mergeE1 :=
  C2_merge_keeps_existing _ _ coreB appendB mergeE1 (by decide) (by decide) (by decide)

/-- Claim C4: decoding a 2-byte buffer, where the 4-byte category count
read already extends past the end, does not fail and returns a catalog;
the result depends on the indeterminate value the failed read leaves in
the count variable: the empty catalog when that value is 0, and a catalog
of NUL-filled records when it is 1.  There is no failure channel at all in
the decoder. -/
theorem C4_truncated_decode_returns_catalog :
    loadLog4j2PluginCacheFile (fun _ => 0) [0, 0] = [] ∧
      loadLog4j2PluginCacheFile (fun _ => 1) [0, 0] =
        [([0], [([0], ⟨[0], [0], [0], true, true, [0]⟩)])] := by
  constructor <;> decide

/-- Claim C5: for any sequence of insertions through the map interface, in
any order, the resulting catalog is sorted ascending by category name with
each category sorted ascending by key, and the encoder emits exactly the
count followed by the category blocks in that sorted order. -/
theorem C5_encode_sorted (ops : List (List Nat × List Nat × PluginEntry)) :
    sortedCatalogP (buildCatalog ops) ∧
      writeLog4j2PluginCacheFile (buildCatalog ops) =
        writeInt (buildCatalog ops).length ++ writeCategories (buildCatalog ops) := by
  constructor
  · have hstep : ∀ (l : List (List Nat × List Nat × PluginEntry)) (acc : Catalog),
        sortedCatalogP acc →
        sortedCatalogP (l.foldl (fun a op => catInsertEntry a op.1 op.2.1 op.2.2) acc) := by
      intro l
      induction l with
      | nil => intro acc h; exact h
      | cons op l' ih =>
        intro acc h
        exact ih _ (catInsertEntry_sorted h)
    exact hstep ops [] ⟨List.Pairwise.nil, fun p hp => absurd hp (List.not_mem_nil p)⟩
  · rfl

/-- Claim C5 witness: inserting categories out of order yields a sorted
catalog with the stated emission. -/
theorem C5_encode_sorted_witness :
    sortedCatalogP (buildCatalog [([67], [107], dupE1), ([65], [106], dupE2)]) ∧
      writeLog4j2PluginCacheFile (buildCatalog [([67], [107], dupE1), ([65], [106], dupE2)]) =
        writeInt (buildCatalog [([67], [107], dupE1), ([65], [106], dupE2)]).length ++
          writeCategories (buildCatalog [([67], [107], dupE1), ([65], [106], dupE2)]) :=
  C5_encode_sorted [([67], [107], dupE1), ([65], [106], dupE2)]

/-- Claim C6 counterexample: the encoder does not produce the byte
sequence the claim states; the className length field is 0x2F = 47 (the
true byte length of the class name), not 0x35 = 53. -/
theorem C6_counterexample :
    writeLog4j2PluginCacheFile exampleCatalog ≠ claimedExampleBytes := by decide

/-- Claim C6, amended: encoding the single-record example catalog produces
exactly the claimed byte sequence with the className length field
corrected to 0x2F (47), and decoding those bytes yields exactly the
single-record catalog. -/
theorem C6_example_bytes :
    writeLog4j2PluginCacheFile exampleCatalog = correctExampleBytes ∧
      loadLog4j2PluginCacheFile (fun _ => 0) correctExampleBytes = exampleCatalog := by
  constructor <;> decide

/-- Claim C7 counterexample: decoding a buffer in which (category, key)
appears twice keeps the FIRST occurrence and discards the later one,
contradicting the claim that the later occurrence replaces the earlier. -/
theorem C7_counterexample :
    loadLog4j2PluginCacheFile (fun _ => 0) dupBuffer = [([67], [([107], dupE1)])] ∧
      loadLog4j2PluginCacheFile (fun _ => 0) dupBuffer ≠ [([67], [([107], dupE2)])] := by
  constructor <;> decide

/-- Claim C7, amended: for every buffer holding one category with two
serialized entries under the same key, decoding retains the EARLIER
occurrence, for every oracle; the later occurrence is discarded because
the decoder inserts with map::insert. -/
theorem C7_decode_keeps_first (cat k : List Nat) (e1 e2 : PluginEntry) (junk : Nat → Nat)
    (hcat : cat.length ≤ 65535) (hklen : k.length ≤ 65535)
    (hk1 : e1.key = k) (hk2 : e2.key = k)
    (h1c : e1.className.length ≤ 65535) (h1n : e1.name.length ≤ 65535)
    (h2c : e2.className.length ≤ 65535) (h2n : e2.name.length ≤ 65535) :
    loadLog4j2PluginCacheFile junk
      (writeInt 1 ++ (writeUTFString cat ++ (writeInt 2 ++ (writeEntry e1 ++ writeEntry e2)))) =
      [(cat, [(k, ⟨k, e1.className, e1.name, e1.printable, e1.defer, cat⟩)])] :=
  decode_dup_keeps_first cat k e1 e2 junk hcat hklen hk1 hk2 h1c h1n h2c h2n

/-- Claim C7 witness: the duplicate-key buffer decodes to the first
occurrence at concrete entries. -/
theorem C7_decode_keeps_first_witness :
    loadLog4j2PluginCacheFile (fun _ => 0)
      (writeInt 1 ++ (writeUTFString [67] ++
        (writeInt 2 ++ (writeEntry dupE1 ++ writeEntry dupE2)))) =
      [([67], [([107], ⟨[107], [99], [110], true, false, [67]⟩)])] :=
  C7_decode_keeps_first [67] [107] dupE1 dupE2 (fun _ => 0) (by decide) (by decide) (by decide)
    (by decide) (by decide) (by decide) (by decide) (by decide)

/-- Claim C8: encoding a catalog whose category name has 65536 bytes does
not fail; the 2-byte length field silently wraps to 00 00 while all 65536
name bytes are still emitted, so the output is corrupt rather than
rejected.  There is no failure channel at all in the encoder. -/
theorem C8_encode_truncates_silently :
    writeLog4j2PluginCacheFile [(List.replicate 65536 97, [])] =
      [0, 0, 0, 1] ++ ([0, 0] ++ List.replicate 65536 97) ++ [0, 0, 0, 0] := by
  have h1 : toBytes 2 (List.replicate (65536 : Nat) (97 : Nat)).length = [0, 0] := by
    rw [List.length_replicate]
    rfl
  have h2 : (writeInt 1 : List Nat) = [0, 0, 0, 1] := rfl
  have h3 : (writeInt 0 : List Nat) = [0, 0, 0, 0] := rfl
  show writeInt 1 ++ writeCategories [(List.replicate 65536 97, [])] = _
  simp only [writeCategories, writeEntries, List.length_nil, List.append_nil]
  rw [writeUTFString, h1, h2, h3, ← List.append_assoc]

/-- Claim C10: on a key collision the source keeps the earliest-seen entry
at both insertion sites: within one decode the first serialized occurrence
of a key is retained, and in a lenient merge the accumulator keeps its
existing entry and discards the incoming one. -/
theorem C10_first_wins_both_sites :
    (∀ (cat k : List Nat) (e1 e2 : PluginEntry) (junk : Nat → Nat),
      cat.length ≤ 65535 → k.length ≤ 65535 → e1.key = k → e2.key = k →
      e1.className.length ≤ 65535 → e1.name.length ≤ 65535 →
      e2.className.length ≤ 65535 → e2.name.length ≤ 65535 →
      loadLog4j2PluginCacheFile junk
        (writeInt 1 ++ (writeUTFString cat ++
          (writeInt 2 ++ (writeEntry e1 ++ writeEntry e2)))) =
        [(cat, [(k, ⟨k, e1.className, e1.name, e1.printable, e1.defer, cat⟩)])]) ∧
    (∀ (acc inc : Catalog) (cat k : List Nat) (e : PluginEntry),
      sortedCatalogP acc → (∀ p ∈ inc, sortedMapP p.2) →
      catLookup acc cat k = some e →
      ∃ r, mergeCatalog acc inc false = .ok r ∧ catLookup r cat k = some e) := by
  constructor
  · intro cat k e1 e2 junk h1 h2 h3 h4 h5 h6 h7 h8
    exact decode_dup_keeps_first cat k e1 e2 junk h1 h2 h3 h4 h5 h6 h7 h8
  · intro acc inc cat k e ha hi hl
    obtain ⟨r, hr1, _, hr3⟩ := mergeCategories_false_spec inc acc ha hi
    exact ⟨r, hr1, hr3 cat k e hl⟩

/-- Claim C10 witness: both first-wins behaviors at concrete inputs. -/
theorem C10_first_wins_both_sites_witness :
    loadLog4j2PluginCacheFile (fun _ => 0)
      (writeInt 1 ++ (writeUTFString [67] ++
        (writeInt 2 ++ (writeEntry dupE1 ++ writeEntry dupE2)))) =
      [([67], [([107], ⟨[107], [99], [110], true, false, [67]⟩)])] ∧
    ∃ r, mergeCatalog [(coreB, [(appendB, mergeE1)])] [(coreB, [(appendB, mergeE2)])] false =
        Except.ok r ∧ catLookup r coreB appendB = some mergeE1 :=
  ⟨C10_first_wins_both_sites.1 [67] [107] dupE1 dupE2 (fun _ => 0) (by decide) (by decide)
      (by decide) (by decide) (by decide) (by decide) (by decide) (by decide),
    C10_first_wins_both_sites.2 _ _ coreB appendB mergeE1 (by decide) (by decide) (by decide)⟩

theorem keyInCat_congr {c1 c2 : Catalog} {cat k : List Nat}
    (h : mapFind cat c1 = mapFind cat c2) : keyInCat c1 cat k = keyInCat c2 cat k := by
  rw [keyInCat, keyInCat, h]

theorem keyInCat_cons_self {cat : List Nat} {m : EntryMap} {tl : Catalog} {k : List Nat} :
    keyInCat ((cat, m) :: tl) cat k = (mapFind k m).isSome := by
  rw [keyInCat, mapFind, if_pos rfl]

theorem keyInCat_cons_other {cat0 cat : List Nat} {m : EntryMap} {tl : Catalog} {k : List Nat}
    (hne : cat0 ≠ cat) : keyInCat ((cat, m) :: tl) cat0 k = keyInCat tl cat0 k := by
  rw [keyInCat, mapFind, if_neg hne, keyInCat]

theorem keyInCat_none {c : Catalog} {cat k : List Nat} (h : mapFind cat c = none) :
    keyInCat c cat k = false := by
  rw [keyInCat, h]

theorem keyInCat_true_elim {c : Catalog} {cat k : List Nat} (h : keyInCat c cat k = true) :
    ∃ m v, mapFind cat c = some m ∧ mapFind k m = some v := by
  rw [keyInCat] at h
  cases hf : mapFind cat c with
  | none =>
    simp only [hf] at h
    exact absurd h (by simp)
  | some m =>
    simp only [hf] at h
    rcases Option.isSome_iff_exists.mp h with ⟨v, hv⟩
    exact ⟨m, v, rfl, hv⟩

theorem keyInCat_key_mem {c : Catalog} {cat k : List Nat} (h : keyInCat c cat k = true) :
    cat ∈ c.map Prod.fst := by
  obtain ⟨m, v, hm, _⟩ := keyInCat_true_elim h
  exact mapFind_some_key_mem hm

theorem mapFind_singleton {α : Type} {k k0 : List Nat} {v m : α}
    (h : mapFind k0 [(k, v)] = some m) : k0 = k ∧ m = v := by
  by_cases he : k0 = k
  · rw [mapFind, if_pos he] at h
    injection h with h
    exact ⟨he, h.symm⟩
  · rw [mapFind, if_neg he, mapFind] at h
    exact absurd h (by simp)

theorem catFind_insert_new {cc : Catalog} {cat k : List Nat} {e : PluginEntry}
    (h : mapFind cat cc = none) :
    mapFind cat (catInsertEntry cc cat k e) = some [(k, e)] := by
  induction cc with
  | nil => simp [catInsertEntry, mapFind]
  | cons hd tl ih =>
    obtain ⟨c0, m0⟩ := hd
    have hne : cat ≠ c0 ∧ mapFind cat tl = none := by
      by_cases he : cat = c0
      · rw [mapFind, if_pos he] at h
        exact absurd h (by simp)
      · rw [mapFind, if_neg he] at h
        exact ⟨he, h⟩
    by_cases h1 : strLt cat c0 = true
    · rw [catInsertEntry, if_pos h1, mapFind, if_pos rfl]
    · by_cases h2 : strLt c0 cat = true
      · rw [catInsertEntry, if_neg h1, if_pos h2, mapFind, if_neg hne.1, ih hne.2]
      · exact absurd (strLt_connex (by simpa using h1) (by simpa using h2)) hne.1

theorem keyInCat_insert_other {acc : Catalog} {cat0 k0 cat k : List Nat} {e : PluginEntry}
    (hs : sortedCatalogP acc) (hne : k0 ≠ k ∨ cat0 ≠ cat) :
    keyInCat (catInsertEntry acc cat k e) cat0 k0 = keyInCat acc cat0 k0 := by
  by_cases hc : cat0 = cat
  · subst hc
    have hk : k0 ≠ k := by
      rcases hne with h | h
      · exact h
      · exact absurd rfl h
    cases hm : mapFind cat0 acc with
    | none =>
      rw [keyInCat_none hm, keyInCat, catFind_insert_new hm]
      simp [mapFind, hk]
    | some m0 =>
      rw [keyInCat, catFind_insert_self hs.1 hm, keyInCat, hm]
      simp only [mapFind_insert_other hk]
  · exact keyInCat_congr (catFind_insert_other hc)

theorem ne_of_strLt {a b : List Nat} (h : strLt a b = true) : b ≠ a :=
  (strLt_ne h).symm

theorem mergeEntries_strict_err (catId : List Nat) (m : EntryMap) :
    ∀ acc : Catalog, sortedCatalogP acc → sortedMapP m →
    (∃ q ∈ m, keyInCat acc catId q.1 = true) →
    ∃ k, mergeEntries true catId m acc = .error (.duplicatePlugin catId k) ∧
      keyInCat acc catId k = true ∧ (mapFind k m).isSome = true := by
  induction m with
  | nil =>
    intro acc _ _ hex
    obtain ⟨q, hq, _⟩ := hex
    exact absurd hq (List.not_mem_nil q)
  | cons q0 m' ih =>
    intro acc hs hms hex
    obtain ⟨k0, e0⟩ := q0
    by_cases hk : keyInCat acc catId k0 = true
    · refine ⟨k0, ?_, hk, ?_⟩
      · rw [mergeEntries, if_pos (by simp [hk])]
      · rw [mapFind, if_pos rfl]
        rfl
    · obtain ⟨q, hq, hqk⟩ := hex
      have hq' : q ∈ m' := by
        rcases List.mem_cons.mp hq with h | h
        · subst h
          exact absurd hqk hk
        · exact h
      have hqne : q.1 ≠ k0 :=
        ne_of_strLt (List.rel_of_pairwise_cons hms hq')
      obtain ⟨k, h1, h2, h3⟩ := ih (catInsertEntry acc catId k0 e0)
        (catInsertEntry_sorted hs)
        (List.Pairwise.sublist (List.sublist_cons_self _ _) hms)
        ⟨q, hq', by rw [keyInCat_insert_other hs (Or.inl hqne)]; exact hqk⟩
      have hkmem : k ∈ m'.map Prod.fst := by
        rcases Option.isSome_iff_exists.mp h3 with ⟨v, hv⟩
        exact mapFind_some_key_mem hv
      have hkne : k ≠ k0 := by
        rcases List.mem_map.mp hkmem with ⟨z, hz, hz2⟩
        have := List.rel_of_pairwise_cons hms hz
        rw [hz2] at this
        exact ne_of_strLt this
      refine ⟨k, ?_, ?_, ?_⟩
      · rw [mergeEntries, if_neg (by simp [hk])]
        exact h1
      · rw [← keyInCat_insert_other hs (Or.inl hkne)]
        exact h2
      · rw [mapFind, if_neg hkne]
        exact h3

theorem mergeEntries_strict_ok (catId : List Nat) (m : EntryMap) :
    ∀ acc : Catalog, sortedCatalogP acc → sortedMapP m →
    (∀ q ∈ m, keyInCat acc catId q.1 = false) →
    ∃ acc', mergeEntries true catId m acc = .ok acc' ∧ sortedCatalogP acc' ∧
      ∀ cat0, cat0 ≠ catId → mapFind cat0 acc' = mapFind cat0 acc := by
  induction m with
  | nil =>
    intro acc hs _ _
    exact ⟨acc, rfl, hs, fun _ _ => rfl⟩
  | cons q0 m' ih =>
    intro acc hs hms hall
    obtain ⟨k0, e0⟩ := q0
    have hk : keyInCat acc catId k0 = false := hall (k0, e0) (List.mem_cons.mpr (Or.inl rfl))
    obtain ⟨acc', h1, h2, h3⟩ := ih (catInsertEntry acc catId k0 e0)
      (catInsertEntry_sorted hs)
      (List.Pairwise.sublist (List.sublist_cons_self _ _) hms)
      (fun q hq => by
        have hqne : q.1 ≠ k0 :=
          ne_of_strLt (List.rel_of_pairwise_cons hms hq)
        rw [keyInCat_insert_other hs (Or.inl hqne)]
        exact hall q (List.mem_cons.mpr (Or.inr hq)))
    refine ⟨acc', ?_, h2, fun cat0 hne => ?_⟩
    · rw [mergeEntries, if_neg (by simp [hk])]
      exact h1
    · rw [h3 cat0 hne, catFind_insert_other hne]

theorem mergeCategories_strict_dup (inc : Catalog) :
    ∀ acc : Catalog, sortedCatalogP acc → sortedCatalogP inc →
    (∃ p ∈ inc, ∃ q ∈ p.2, keyInCat acc p.1 q.1 = true) →
    ∃ cat k, mergeCategories true inc acc = .error (.duplicatePlugin cat k) ∧
      keyInCat acc cat k = true ∧ keyInCat inc cat k = true := by
  induction inc with
  | nil =>
    intro acc _ _ hex
    obtain ⟨p, hp, _⟩ := hex
    exact absurd hp (List.not_mem_nil p)
  | cons p0 inc' ih =>
    intro acc hacc hinc hex
    obtain ⟨catId, m⟩ := p0
    obtain ⟨houtHead, houtTail⟩ := List.pairwise_cons.mp hinc.1
    have hminner : sortedMapP m := hinc.2 (catId, m) (List.mem_cons.mpr (Or.inl rfl))
    have hinc' : sortedCatalogP inc' :=
      ⟨houtTail, fun p hp => hinc.2 p (List.mem_cons.mpr (Or.inr hp))⟩
    cases hfind : mapFind catId acc with
    | some m0 =>
      by_cases hdup : ∃ q ∈ m, keyInCat acc catId q.1 = true
      · obtain ⟨k, h1, h2, h3⟩ := mergeEntries_strict_err catId m acc hacc hminner hdup
        refine ⟨catId, k, ?_, h2, ?_⟩
        · simp only [mergeCategories, hfind, h1]
        · rw [keyInCat_cons_self]
          exact h3
      · have hall : ∀ q ∈ m, keyInCat acc catId q.1 = false := by
          intro q hq
          by_contra hcon
          exact hdup ⟨q, hq, by simpa using hcon⟩
        obtain ⟨acc', h1, h2, h3⟩ := mergeEntries_strict_ok catId m acc hacc hminner hall
        obtain ⟨p, hp, q, hq, hqk⟩ := hex
        have hp' : p ∈ inc' := by
          rcases List.mem_cons.mp hp with h | h
          · subst h
            exact absurd hqk (by simp [hall q hq])
          · exact h
        have hpne : p.1 ≠ catId := ne_of_strLt (houtHead p hp')
        have hq2 : keyInCat acc' p.1 q.1 = true :=
          (keyInCat_congr (h3 p.1 hpne)).trans hqk
        obtain ⟨cat, k, hh1, hh2, hh3⟩ := ih acc' h2 hinc' ⟨p, hp', q, hq, hq2⟩
        have hcne : cat ≠ catId := by
          have hmem := keyInCat_key_mem hh3
          rcases List.mem_map.mp hmem with ⟨z, hz, hz2⟩
          have := houtHead z hz
          rw [hz2] at this
          exact ne_of_strLt this
        refine ⟨cat, k, ?_, ?_, ?_⟩
        · simp only [mergeCategories, hfind, h1, hh1]
        · exact ((keyInCat_congr (h3 cat hcne)).symm.trans hh2)
        · rw [keyInCat_cons_other hcne]
          exact hh3
    | none =>
      have h2 : sortedCatalogP (mapAssign catId m acc) := catAssign_sorted hacc hminner
      obtain ⟨p, hp, q, hq, hqk⟩ := hex
      have hp' : p ∈ inc' := by
        rcases List.mem_cons.mp hp with h | h
        · subst h
          exact absurd hqk (by simp [keyInCat_none hfind])
        · exact h
      have hpne : p.1 ≠ catId := ne_of_strLt (houtHead p hp')
      have hq2 : keyInCat (mapAssign catId m acc) p.1 q.1 = true :=
        (keyInCat_congr (mapFind_assign_other hpne)).trans hqk
      obtain ⟨cat, k, hh1, hh2, hh3⟩ := ih (mapAssign catId m acc) h2 hinc' ⟨p, hp', q, hq, hq2⟩
      have hcne : cat ≠ catId := by
        have hmem := keyInCat_key_mem hh3
        rcases List.mem_map.mp hmem with ⟨z, hz, hz2⟩
        have := houtHead z hz
        rw [hz2] at this
        exact ne_of_strLt this
      refine ⟨cat, k, ?_, ?_, ?_⟩
      · simp only [mergeCategories, hfind, hh1]
      · exact ((keyInCat_congr (mapFind_assign_other hcne)).symm.trans hh2)
      · rw [keyInCat_cons_other hcne]
        exact hh3

/-- Claim C3: for every accumulator and incoming catalog that share some
(category, key) pair, merging with strict enabled fails with the duplicate
diagnostic identifying a shared category and key, and no merged catalog is
produced. -/
theorem C3_strict_duplicate_error (acc inc : Catalog) (cat k : List Nat)
    (ha : sortedCatalogP acc) (hi : sortedCatalogP inc)
    (h1 : keyInCat acc cat k = true) (h2 : keyInCat inc cat k = true) :
    ∃ cat' k', mergeCatalog acc inc true = .error (.duplicatePlugin cat' k') ∧
      keyInCat acc cat' k' = true ∧ keyInCat inc cat' k' = true := by
  obtain ⟨m, v, hm, hv⟩ := keyInCat_true_elim h2
  have hex : ∃ p ∈ inc, ∃ q ∈ p.2, keyInCat acc p.1 q.1 = true :=
    ⟨(cat, m), mapFind_some_mem hm, (k, v), mapFind_some_mem hv, h1⟩
  exact mergeCategories_strict_dup inc acc ha hi hex

/-- Claim C3 witness: merging the concrete Core and Append catalogs with
strict enabled fails naming exactly (Core, Append). -/
theorem C3_strict_duplicate_error_witness :
    mergeCatalog [(coreB, [(appendB, mergeE1)])] [(coreB, [(appendB, mergeE2)])] true =
      Except.error (.duplicatePlugin coreB appendB) := by
  obtain ⟨cat', k', h1, h2, h3⟩ := C3_strict_duplicate_error
    [(coreB, [(appendB, mergeE1)])] [(coreB, [(appendB, mergeE2)])] coreB appendB
    (by decide) (by decide) (by decide) (by decide)
  obtain ⟨m, v, hm, hv⟩ := keyInCat_true_elim h2
  obtain ⟨hc1, hc2⟩ := mapFind_singleton hm
  subst hc2
  obtain ⟨hk1, _⟩ := mapFind_singleton hv
  rw [hc1, hk1] at h1
  exact h1

theorem catInsertEntry_wellCat {cc : Catalog} {cat k : List Nat} {e : PluginEntry}
    (h : wellCategorized cc) (he : e.category = cat) :
    wellCategorized (catInsertEntry cc cat k e) := by
  induction cc with
  | nil =>
    intro p hp q hq
    have hp' : p = (cat, [(k, e)]) := by simpa [catInsertEntry] using hp
    subst hp'
    have hq' : q = (k, e) := by simpa using hq
    subst hq'
    exact he
  | cons hd tl ih =>
    obtain ⟨c0, m0⟩ := hd
    have hhead : ∀ q ∈ m0, q.2.category = c0 :=
      fun q hq => h (c0, m0) (List.mem_cons.mpr (Or.inl rfl)) q hq
    have htail : wellCategorized tl :=
      fun p hp q hq => h p (List.mem_cons.mpr (Or.inr hp)) q hq
    by_cases h1 : strLt cat c0 = true
    · rw [catInsertEntry, if_pos h1]
      intro p hp q hq
      rcases List.mem_cons.mp hp with hp' | hp'
      · subst hp'
        have hq' : q = (k, e) := by simpa using hq
        subst hq'
        exact he
      · exact h p hp' q hq
    · by_cases h2 : strLt c0 cat = true
      · rw [catInsertEntry, if_neg h1, if_pos h2]
        intro p hp q hq
        rcases List.mem_cons.mp hp with hp' | hp'
        · subst hp'
          exact hhead q hq
        · exact ih htail p hp' q hq
      · rw [catInsertEntry, if_neg h1, if_neg h2]
        have hk : cat = c0 := strLt_connex (by simpa using h1) (by simpa using h2)
        intro p hp q hq
        rcases List.mem_cons.mp hp with hp' | hp'
        · subst hp'
          rcases mapInsert_mem hq with hq' | hq'
          · subst hq'
            rw [he, hk]
          · exact hhead q hq'
        · exact htail p hp' q hq

theorem loadEntry_category (cat : List Nat) (s : RStream) :
    (loadEntry cat s).1.category = cat := by
  rw [loadEntry]

theorem loadEntries_wellCat (cat : List Nat) :
    ∀ (n : Nat) (cats : Catalog) (s : RStream), wellCategorized cats →
      wellCategorized (loadEntries cat n cats s).1 := by
  intro n
  induction n with
  | zero => intro cats s h; exact h
  | succ n ih =>
    intro cats s h
    have hcat := loadEntry_category cat s
    rcases hle : loadEntry cat s with ⟨e, s'⟩
    rw [hle] at hcat
    simp only [loadEntries, hle]
    exact ih _ _ (catInsertEntry_wellCat h hcat)

theorem loadCategories_wellCat :
    ∀ (n : Nat) (cats : Catalog) (s : RStream), wellCategorized cats →
      wellCategorized (loadCategories n cats s).1 := by
  intro n
  induction n with
  | zero => intro cats s h; exact h
  | succ n ih =>
    intro cats s h
    rcases h1 : readUTFString s with ⟨cat, s1⟩
    rcases h2 : readInt s1 with ⟨cnt, s2⟩
    rcases h3 : loadEntries cat cnt cats s2 with ⟨cats', s3⟩
    have hwc : wellCategorized cats' := by
      have := loadEntries_wellCat cat cnt cats s2 h
      rw [h3] at this
      exact this
    simp only [loadCategories, h1, h2, h3]
    exact ih _ _ hwc

theorem load_wellCat (junk : Nat → Nat) (data : List Nat) :
    wellCategorized (loadLog4j2PluginCacheFile junk data) := by
  rw [loadLog4j2PluginCacheFile]
  rcases h1 : readInt ⟨data, 0, false, junk, 0⟩ with ⟨cnt, s1⟩
  simp only [h1]
  exact loadCategories_wellCat cnt [] s1 (fun p hp => absurd hp (List.not_mem_nil p))

theorem catAssign_wellCat {acc : Catalog} {cat : List Nat} {m : EntryMap}
    (h : wellCategorized acc) (hm : ∀ q ∈ m, q.2.category = cat) :
    wellCategorized (mapAssign cat m acc) := by
  intro p hp q hq
  rcases mapAssign_mem hp with hp' | hp'
  · subst hp'
    exact hm q hq
  · exact h p hp' q hq

theorem mergeEntries_wellCat (strict : Bool) (catId : List Nat) (m : EntryMap) :
    ∀ acc r : Catalog, wellCategorized acc → (∀ q ∈ m, q.2.category = catId) →
      mergeEntries strict catId m acc = .ok r → wellCategorized r := by
  induction m with
  | nil =>
    intro acc r h _ he
    injection he with he
    subst he
    exact h
  | cons q0 m' ih =>
    intro acc r h hm he
    obtain ⟨k, e⟩ := q0
    by_cases hc : (keyInCat acc catId k && strict) = true
    · rw [mergeEntries, if_pos hc] at he
      exact absurd he (by simp)
    · rw [mergeEntries, if_neg hc] at he
      exact ih _ r
        (catInsertEntry_wellCat h (hm (k, e) (List.mem_cons.mpr (Or.inl rfl))))
        (fun q hq => hm q (List.mem_cons.mpr (Or.inr hq))) he

theorem mergeCategories_wellCat (strict : Bool) (inc : Catalog) :
    ∀ acc r : Catalog, wellCategorized acc → wellCategorized inc →
      mergeCategories strict inc acc = .ok r → wellCategorized r := by
  induction inc with
  | nil =>
    intro acc r h _ he
    injection he with he
    subst he
    exact h
  | cons p0 inc' ih =>
    intro acc r h hinc he
    obtain ⟨catId, m⟩ := p0
    have hm : ∀ q ∈ m, q.2.category = catId :=
      fun q hq => hinc (catId, m) (List.mem_cons.mpr (Or.inl rfl)) q hq
    have hinc' : wellCategorized inc' :=
      fun p hp q hq => hinc p (List.mem_cons.mpr (Or.inr hp)) q hq
    cases hfind : mapFind catId acc with
    | some m0 =>
      simp only [mergeCategories, hfind] at he
      cases hme : mergeEntries strict catId m acc with
      | ok acc' =>
        rw [hme] at he
        exact ih acc' r (mergeEntries_wellCat strict catId m acc acc' h hm hme) hinc' he
      | error e =>
        rw [hme] at he
        exact absurd he (by simp)
    | none =>
      simp only [mergeCategories, hfind] at he
      exact ih _ r (catAssign_wellCat h hm) hinc' he

/-- Claim C9: after any sequence of Merge operations, each a decode of a
buffer followed by a fold into the accumulator, starting from the empty
catalog and succeeding, every entry held in the accumulator has its
category field equal to the name of the category map holding it. -/
theorem C9_category_invariant (junk : Nat → Nat) (strict : Bool) (bufs : List (List Nat))
    (c : Catalog) (h : mergeAll junk strict bufs [] = .ok c) : wellCategorized c := by
  have main : ∀ (bs : List (List Nat)) (acc r : Catalog), wellCategorized acc →
      mergeAll junk strict bs acc = .ok r → wellCategorized r := by
    intro bs
    induction bs with
    | nil =>
      intro acc r h he
      injection he with he
      subst he
      exact h
    | cons b bs' ih =>
      intro acc r hacc he
      cases hme : mergeCatalog acc (loadLog4j2PluginCacheFile junk b) strict with
      | ok acc' =>
        simp only [mergeAll, hme] at he
        exact ih acc' r
          (mergeCategories_wellCat strict _ acc acc' hacc (load_wellCat junk b) hme) he
      | error e =>
        simp only [mergeAll, hme] at he
        exact absurd he (by simp)
  exact main bufs [] c (fun p hp => absurd hp (List.not_mem_nil p)) h

/-- Claim C9 witness: the catalog accumulated from the example buffer is
well categorized. -/
theorem C9_category_invariant_witness : wellCategorized exampleCatalog :=
  C9_category_invariant (fun _ => 0) false [correctExampleBytes] exampleCatalog (by decide)

end L4J
